import Mathlib

/-!
Verification of the hash-join kernel and logical-plan builder of a columnar
dataframe library (`polars-core/src/frame/hash_join.rs` and
`polars-lazy/src/logical_plan/mod.rs`).

The Rust code is shallowly embedded: key columns become `List α` (with
`α := Option β` when the column has nulls, so that a null key compares equal
to a null key), row indices become `Nat`, hash-table lookups become list
searches keyed by decidable equality (equal keys hash equally, so a hash
lookup returns exactly the rows with an equal key), and partial operations
(Rust panics) return `Option`.
-/

namespace Polars

section JoinTuples

variable {α : Type} [DecidableEq α]

/-- Modelled from the spec: `prepare_hashed_relation` (in `vector_hasher`, not
under `src/`) builds a `HashMap` from key to the `Vec` of row indices holding
that key, in insertion order.  We embed the lookup side of that map: the bucket
of key `k` is the list of positions of `b` whose element equals `k`, in
increasing order.  A key absent from `b` has the empty bucket (the map lookup
returns `None`). -/
def prepare_hashed_relation (b : List α) (k : α) : List Nat :=
  ((b.enum).filter (fun p => decide (p.2 = k))).map (fun p => p.1)

/-- `hash_join_tuples_inner` (hash_join.rs:203).  `a` is the probe side, `b`
the build side; for each probe row whose key is found in the table, one pair
per listed build index is emitted, `(idx_b, idx_a)` when `swap` and
`(idx_a, idx_b)` otherwise.  Unmatched probe rows emit nothing. -/
def hash_join_tuples_inner (a b : List α) (swap : Bool) : List (Nat × Nat) :=
  (a.enum).flatMap (fun p =>
    (prepare_hashed_relation b p.2).map
      (fun ib => if swap then (ib, p.1) else (p.1, ib)))

/-- Pairs emitted for one probe row of a left join: all matches when the
bucket is non-empty, the single pair `(idx_a, none)` otherwise
(hash_join.rs:252-260). -/
def left_row_pairs (b : List α) (p : Nat × α) : List (Nat × Option Nat) :=
  match prepare_hashed_relation b p.2 with
  | [] => [(p.1, none)]
  | l => l.map (fun ib => (p.1, some ib))

/-- `hash_join_tuples_left` (hash_join.rs:240).  The left relation `a` is
always the probe side; no swap heuristic is applied (see `hash_join_left`,
hash_join.rs:478-504, which passes `self` as probe directly). -/
def hash_join_tuples_left (a b : List α) : List (Nat × Option Nat) :=
  (a.enum).flatMap (left_row_pairs b)

end JoinTuples

section Lemmas

variable {α : Type} [DecidableEq α]

theorem mem_prepare_hashed_relation {b : List α} {k : α} {j : Nat} :
    j ∈ prepare_hashed_relation b k ↔ b[j]? = some k := by
  simp only [prepare_hashed_relation, List.mem_map, List.mem_filter]
  constructor
  · rintro ⟨⟨i, x⟩, ⟨hmem, hx⟩, rfl⟩
    simp only [decide_eq_true_eq] at hx
    subst hx
    exact (List.mk_mem_enum_iff_getElem?).1 hmem
  · intro h
    exact ⟨(j, k), ⟨(List.mk_mem_enum_iff_getElem?).2 h, by simp⟩, rfl⟩

theorem prepare_hashed_relation_nodup (b : List α) (k : α) :
    (prepare_hashed_relation b k).Nodup := by
  have hsub : ((b.enum.filter (fun p => decide (p.2 = k))).map Prod.fst).Sublist
      (b.enum.map Prod.fst) := (List.filter_sublist _).map _
  have : (b.enum.map Prod.fst).Nodup := by
    rw [List.enum_map_fst]; exact List.nodup_range _
  exact (hsub.nodup this)

theorem prepare_hashed_relation_eq_nil {b : List α} {k : α} :
    prepare_hashed_relation b k = [] ↔ k ∉ b := by
  constructor
  · intro h hk
    obtain ⟨j, hj, hbj⟩ := List.getElem_of_mem hk
    have : j ∈ prepare_hashed_relation b k :=
      mem_prepare_hashed_relation.2 (by simp [List.getElem?_eq_getElem hj, hbj])
    simp [h] at this
  · intro hk
    by_contra h
    obtain ⟨j, hj⟩ := List.exists_mem_of_ne_nil _ h
    exact hk (List.getElem?_mem (mem_prepare_hashed_relation.1 hj))

/-- Claim C1: for every inner join of two key columns, a pair `(i, j)` is
emitted (probe side first) exactly when the probe key at `i` equals the build
key at `j` — nulls are embedded as `Option` values, so a null key compares
equal to a null key, and a probe row matching no build key contributes no
pair — and the `swap` flag exactly swaps every pair back to (left, right)
coordinate order when the right side was the probe side. -/
theorem c1_inner_join_pairs_key_eq (a b : List α) (i j : Nat) :
    ((i, j) ∈ hash_join_tuples_inner a b false ↔
      ∃ k, a[i]? = some k ∧ b[j]? = some k) ∧
    hash_join_tuples_inner a b true =
      (hash_join_tuples_inner a b false).map Prod.swap := by
  constructor
  · simp only [hash_join_tuples_inner, if_neg Bool.false_ne_true, List.mem_flatMap,
      List.mem_map]
    constructor
    · rintro ⟨⟨ia, k⟩, hmem, ib, hb, heq⟩
      simp only [Prod.mk.injEq] at heq
      obtain ⟨rfl, rfl⟩ := heq
      exact ⟨k, (List.mk_mem_enum_iff_getElem?).1 hmem, mem_prepare_hashed_relation.1 hb⟩
    · rintro ⟨k, ha, hb⟩
      exact ⟨(i, k), (List.mk_mem_enum_iff_getElem?).2 ha,
        j, mem_prepare_hashed_relation.2 hb, rfl⟩
  · simp only [hash_join_tuples_inner, List.map_flatMap, List.map_map]
    apply List.flatMap_congr
    intro p _
    simp [Function.comp, Prod.swap]

theorem countP_flatMap {γ β : Type} (l : List γ) (f : γ → List β) (p : β → Bool) :
    (l.flatMap f).countP p = (l.map (fun x => (f x).countP p)).sum := by
  induction l with
  | nil => simp
  | cons x xs ih => simp [List.flatMap_cons, List.countP_append, ih]

theorem sum_map_zero {γ : Type} (l : List γ) (g : γ → Nat)
    (h : ∀ x ∈ l, g x = 0) : (l.map g).sum = 0 := by
  induction l with
  | nil => simp
  | cons x xs ih =>
    simp only [List.map_cons, List.sum_cons, h x (List.mem_cons_self x xs),
      Nat.zero_add]
    exact ih (fun y hy => h y (List.mem_cons_of_mem x hy))

/-- For probe rows with pairwise distinct indices, the total contribution of a
per-row function that vanishes away from row `i` is the contribution of the
unique row `(i, k)`. -/
theorem sum_map_eq_single (rows : List (Nat × α)) (g : Nat × α → Nat) (i : Nat) (k : α)
    (hmem : (i, k) ∈ rows) (hnd : (rows.map Prod.fst).Nodup)
    (hz : ∀ r ∈ rows, r.1 ≠ i → g r = 0) :
    (rows.map g).sum = g (i, k) := by
  induction rows with
  | nil => cases hmem
  | cons r rest ih =>
    rw [List.map_cons, List.nodup_cons] at hnd
    obtain ⟨hr_notin, hnd_rest⟩ := hnd
    by_cases hr : r.1 = i
    · have hi_notin : i ∉ rest.map Prod.fst := hr ▸ hr_notin
      have hrk : r = (i, k) := by
        rcases List.mem_cons.1 hmem with h | h
        · exact h.symm
        · exact absurd (List.mem_map_of_mem Prod.fst h) hi_notin
      subst hrk
      simp only [List.map_cons, List.sum_cons]
      have : (rest.map g).sum = 0 := by
        apply sum_map_zero
        intro x hx
        apply hz x (List.mem_cons_of_mem _ hx)
        intro hxi
        exact hi_notin (hxi ▸ List.mem_map_of_mem Prod.fst hx)
      omega
    · have hgr : g r = 0 := hz r (List.mem_cons_self _ _) hr
      have hmem' : (i, k) ∈ rest := by
        rcases List.mem_cons.1 hmem with h | h
        · exact absurd (congrArg Prod.fst h.symm) hr
        · exact h
      simp only [List.map_cons, List.sum_cons, hgr, Nat.zero_add]
      exact ih hmem' hnd_rest (fun x hx => hz x (List.mem_cons_of_mem _ hx))

theorem fst_of_mem_left_row_pairs {b : List α} {p : Nat × α} {q : Nat × Option Nat}
    (h : q ∈ left_row_pairs b p) : q.1 = p.1 := by
  unfold left_row_pairs at h
  rcases hl : prepare_hashed_relation b p.2 with _ | ⟨x, xs⟩
  · rw [hl] at h; simp at h; simp [h]
  · rw [hl] at h
    simp only [List.mem_map] at h
    obtain ⟨ib, _, rfl⟩ := h
    rfl

theorem left_row_pairs_ne_nil (b : List α) (p : Nat × α) :
    left_row_pairs b p ≠ [] := by
  unfold left_row_pairs
  rcases hl : prepare_hashed_relation b p.2 with _ | ⟨x, xs⟩ <;> simp

/-- Claim C2: for every left join the left relation is probed directly (no
shorter-relation swap, see `hash_join_left`), so every left row index `i`
appears in at least one emitted pair; and when the key of row `i` matches no
right-side key, exactly one pair `(i, ⊥)` is emitted and no other pair has
left index `i`. -/
theorem c2_left_join_coverage (a b : List α) (i : Nat) (k : α)
    (hk : a[i]? = some k) :
    (∃ p ∈ hash_join_tuples_left a b, p.1 = i) ∧
    (k ∉ b →
      (hash_join_tuples_left a b).countP
          (fun p => decide (p = (i, (none : Option Nat)))) = 1 ∧
      ∀ p ∈ hash_join_tuples_left a b, p.1 = i → p = (i, none)) := by
  have hik : (i, k) ∈ a.enum := (List.mk_mem_enum_iff_getElem?).2 hk
  constructor
  · obtain ⟨q, hq⟩ := List.exists_mem_of_ne_nil _ (left_row_pairs_ne_nil b (i, k))
    exact ⟨q, List.mem_flatMap_of_mem hik hq, fst_of_mem_left_row_pairs hq⟩
  · intro hnb
    have hbucket : prepare_hashed_relation b k = [] :=
      prepare_hashed_relation_eq_nil.2 hnb
    have hrow : left_row_pairs b (i, k) = [(i, none)] := by
      unfold left_row_pairs; rw [hbucket]
    constructor
    · rw [hash_join_tuples_left, countP_flatMap]
      rw [sum_map_eq_single a.enum _ i k hik
        (by rw [List.enum_map_fst]; exact List.nodup_range _)]
      · rw [hrow]; simp
      · intro r _ hr
        rw [List.countP_eq_zero]
        intro q hq hdec
        have : q = (i, none) := of_decide_eq_true hdec
        exact hr (by rw [← fst_of_mem_left_row_pairs hq, this])
    · intro p hp hpi
      obtain ⟨r, hr_mem, hr_pairs⟩ := List.mem_flatMap.1 hp
      have hfst : r.1 = i := by rw [← fst_of_mem_left_row_pairs hr_pairs, hpi]
      have hrk : r = (i, k) := by
        obtain ⟨r1, r2⟩ := r
        simp only at hfst
        subst hfst
        have := (List.mk_mem_enum_iff_getElem?).1 hr_mem
        rw [hk] at this
        simpa using this.symm
      rw [hrk, hrow] at hr_pairs
      simpa using hr_pairs

/-- Witness for C2 at a concrete input: `a = [0, 5]`, `b = [1]`, row `1` with
key `5` unmatched on the right. -/
theorem c2_left_join_coverage_witness :
    ([0, 5] : List Nat)[1]? = some 5 ∧
    ((∃ p ∈ hash_join_tuples_left [0, 5] [1], p.1 = 1) ∧
     ((5 : Nat) ∉ [1] →
       (hash_join_tuples_left [0, 5] [1]).countP
           (fun p => decide (p = (1, (none : Option Nat)))) = 1 ∧
       ∀ p ∈ hash_join_tuples_left [0, 5] [1], p.1 = 1 → p = (1, none))) :=
  ⟨by decide, c2_left_join_coverage [0, 5] [1] 1 5 (by decide)⟩

end Lemmas

section OuterJoin

variable {α : Type} [DecidableEq α]

/-- The probe pass of `hash_join_tuples_outer` (hash_join.rs:266-321).  The
shared table is mutated: a successful `remove` deletes the whole bucket, so we
carry the list of keys removed so far.  A probe row whose key is still present
emits one pair per build index of the bucket; a row whose key was never
inserted, or whose bucket was already removed by an earlier probe row, emits a
single half-pair.  Returns the emitted pairs and the final removed-key set. -/
def hash_join_tuples_outer_probe (b : List α) (swap : Bool) :
    List (Nat × α) → List α → List (Option Nat × Option Nat) × List α
  | [], removed => ([], removed)
  | (ia, k) :: rest, removed =>
    if k ∈ b ∧ k ∉ removed then
      let res := hash_join_tuples_outer_probe b swap rest (k :: removed)
      ((prepare_hashed_relation b k).map
          (fun ib => if swap then (some ib, some ia) else (some ia, some ib))
        ++ res.1, res.2)
    else
      let res := hash_join_tuples_outer_probe b swap rest removed
      ((if swap then (none, some ia) else (some ia, none)) :: res.1, res.2)

/-- `hash_join_tuples_outer` (hash_join.rs:266): probe pass followed by a
second pass over the buckets surviving in the table, emitting `(⊥, build_row)`
(coordinates per `swap`) for every remaining build index.  The `HashMap`
iteration order of the second pass is unspecified in the source; it is
modelled as last-occurrence key order, and no claim proved below depends on
that order. -/
def hash_join_tuples_outer (a b : List α) (swap : Bool) :
    List (Option Nat × Option Nat) :=
  let res := hash_join_tuples_outer_probe b swap a.enum []
  res.1 ++ (b.dedup.filter (fun k => decide (k ∉ res.2))).flatMap
    (fun k => (prepare_hashed_relation b k).map
      (fun ib => if swap then (some ib, none) else (none, some ib)))

theorem countP_eq_one_of_nodup_mem {l : List Nat} {j : Nat}
    (hnd : l.Nodup) (hj : j ∈ l) :
    l.countP (fun x => decide (x = j)) = 1 := by
  induction l with
  | nil => cases hj
  | cons x xs ih =>
    rw [List.nodup_cons] at hnd
    by_cases hx : x = j
    · subst hx
      rw [List.countP_cons_of_pos _ _ (by simp)]
      have : xs.countP (fun y => decide (y = x)) = 0 := by
        rw [List.countP_eq_zero]
        intro y hy hdec
        exact hnd.1 ((of_decide_eq_true hdec) ▸ hy)
      omega
    · rw [List.countP_cons_of_neg _ _ (by simpa using hx)]
      exact ih hnd.2 (by rcases List.mem_cons.1 hj with h | h
                         · exact absurd h.symm hx
                         · exact h)

theorem countP_eq_zero_of_not_mem {l : List Nat} {j : Nat} (hj : j ∉ l) :
    l.countP (fun x => decide (x = j)) = 0 := by
  rw [List.countP_eq_zero]
  intro y hy hdec
  exact hj ((of_decide_eq_true hdec) ▸ hy)

theorem bucket_countP {b : List α} {j : Nat} (k' : α) :
    (prepare_hashed_relation b k').countP (fun ib => decide (ib = j))
      = if b[j]? = some k' then 1 else 0 := by
  by_cases h : b[j]? = some k'
  · rw [if_pos h]
    exact countP_eq_one_of_nodup_mem (prepare_hashed_relation_nodup b k')
      (mem_prepare_hashed_relation.2 h)
  · rw [if_neg h]
    exact countP_eq_zero_of_not_mem (fun hm => h (mem_prepare_hashed_relation.1 hm))

theorem outer_probe_removed_mem (b : List α) (swap : Bool) (k : α) :
    ∀ (rows : List (Nat × α)) (removed : List α),
      (k ∈ (hash_join_tuples_outer_probe b swap rows removed).2 ↔
        k ∈ removed ∨ (k ∈ b ∧ ∃ r ∈ rows, r.2 = k)) := by
  intro rows
  induction rows with
  | nil => intro removed; simp [hash_join_tuples_outer_probe]
  | cons r rest ih =>
    intro removed
    obtain ⟨ia, k'⟩ := r
    rw [hash_join_tuples_outer_probe]
    by_cases hc : k' ∈ b ∧ k' ∉ removed
    · rw [if_pos hc]
      dsimp only
      rw [ih (k' :: removed)]
      constructor
      · rintro (h | ⟨hb, r', hr', hrk⟩)
        · rcases List.mem_cons.1 h with h | h
          · exact Or.inr ⟨by rw [h]; exact hc.1, (ia, k'),
              List.mem_cons_self _ _, h.symm⟩
          · exact Or.inl h
        · exact Or.inr ⟨hb, r', List.mem_cons_of_mem _ hr', hrk⟩
      · rintro (h | ⟨hb, r', hr', hrk⟩)
        · exact Or.inl (List.mem_cons_of_mem _ h)
        · rcases List.mem_cons.1 hr' with h | h
          · refine Or.inl ?_
            rw [← hrk, h]
            exact List.mem_cons_self _ _
          · exact Or.inr ⟨hb, r', h, hrk⟩
    · rw [if_neg hc]
      dsimp only
      rw [ih removed]
      constructor
      · rintro (h | ⟨hb, r', hr', hrk⟩)
        · exact Or.inl h
        · exact Or.inr ⟨hb, r', List.mem_cons_of_mem _ hr', hrk⟩
      · rintro (h | ⟨hb, r', hr', hrk⟩)
        · exact Or.inl h
        · rcases List.mem_cons.1 hr' with h | h
          · have hkk' : k' = k := by rw [← hrk, h]
            subst hkk'
            rcases not_and_or.1 hc with h' | h'
            · exact absurd hb h'
            · exact Or.inl (not_not.1 h')
          · exact Or.inr ⟨hb, r', h, hrk⟩

theorem outer_probe_countP (b : List α) (j : Nat) (k : α) (hjk : b[j]? = some k) :
    ∀ (rows : List (Nat × α)) (removed : List α),
      (hash_join_tuples_outer_probe b false rows removed).1.countP
          (fun p => decide (p.2 = some j))
        = if k ∉ removed ∧ ∃ r ∈ rows, r.2 = k then 1 else 0 := by
  have hkb : k ∈ b := List.getElem?_mem hjk
  intro rows
  induction rows with
  | nil => intro removed; simp [hash_join_tuples_outer_probe]
  | cons r rest ih =>
    intro removed
    obtain ⟨ia, k'⟩ := r
    rw [hash_join_tuples_outer_probe]
    by_cases hc : k' ∈ b ∧ k' ∉ removed
    · rw [if_pos hc]
      dsimp only
      simp only [if_neg Bool.false_ne_true, List.countP_append, List.countP_map]
      have hfun : ((fun p : Option Nat × Option Nat => decide (p.2 = some j)) ∘
            (fun ib => ((some ia : Option Nat), (some ib : Option Nat))))
          = fun ib => decide (ib = j) := by
        funext ib; simp
      have hhead : (prepare_hashed_relation b k').countP
          ((fun p : Option Nat × Option Nat => decide (p.2 = some j)) ∘
            (fun ib => ((some ia : Option Nat), (some ib : Option Nat))))
          = if k' = k then 1 else 0 := by
        rw [hfun, bucket_countP]
        by_cases hk' : k' = k
        · subst hk'; rw [if_pos hjk, if_pos rfl]
        · rw [if_neg (fun h => hk' (by injection (hjk ▸ h) with h'; exact h'.symm)),
            if_neg hk']
      rw [hhead, ih (k' :: removed)]
      by_cases hk' : k' = k
      · subst hk'
        rw [if_pos rfl]
        have : ¬ (k' ∉ k' :: removed ∧ ∃ r ∈ rest, r.2 = k') := by
          rintro ⟨hn, _⟩; exact hn (List.mem_cons_self _ _)
        rw [if_neg this, if_pos ⟨hc.2, (ia, k'), List.mem_cons_self _ _, rfl⟩]
      · rw [if_neg hk']
        have hiff : (k ∉ k' :: removed ∧ ∃ r ∈ rest, r.2 = k) ↔
            (k ∉ removed ∧ ∃ r ∈ (ia, k') :: rest, r.2 = k) := by
          constructor
          · rintro ⟨hn, r', hr', hrk⟩
            exact ⟨fun h => hn (List.mem_cons_of_mem _ h),
              r', List.mem_cons_of_mem _ hr', hrk⟩
          · rintro ⟨hn, r', hr', hrk⟩
            refine ⟨fun h => ?_, ?_⟩
            · rcases List.mem_cons.1 h with h | h
              · exact hk' h.symm
              · exact hn h
            · rcases List.mem_cons.1 hr' with h | h
              · exact absurd (by rw [← hrk, h]) hk'
              · exact ⟨r', h, hrk⟩
        by_cases hcond : k ∉ k' :: removed ∧ ∃ r ∈ rest, r.2 = k
        · rw [if_pos hcond, if_pos (hiff.1 hcond)]
        · rw [if_neg hcond, if_neg (fun h => hcond (hiff.2 h))]
    · rw [if_neg hc]
      dsimp only
      simp only [if_neg Bool.false_ne_true]
      rw [List.countP_cons_of_neg _ _ (by simp), ih removed]
      by_cases hk' : k' = k
      · subst hk'
        rcases not_and_or.1 hc with h | h
        · exact absurd hkb h
        · have hkr : k' ∈ removed := not_not.1 h
          rw [if_neg (by rintro ⟨hn, _⟩; exact hn hkr),
            if_neg (by rintro ⟨hn, _⟩; exact hn hkr)]
      · have hiff : (k ∉ removed ∧ ∃ r ∈ rest, r.2 = k) ↔
            (k ∉ removed ∧ ∃ r ∈ (ia, k') :: rest, r.2 = k) := by
          constructor
          · rintro ⟨hn, r', hr', hrk⟩
            exact ⟨hn, r', List.mem_cons_of_mem _ hr', hrk⟩
          · rintro ⟨hn, r', hr', hrk⟩
            rcases List.mem_cons.1 hr' with h | h
            · exact absurd (by rw [← hrk, h]) hk'
            · exact ⟨hn, r', h, hrk⟩
        by_cases hcond : k ∉ removed ∧ ∃ r ∈ rest, r.2 = k
        · rw [if_pos hcond, if_pos (hiff.1 hcond)]
        · rw [if_neg hcond, if_neg (fun h => hcond (hiff.2 h))]

theorem sum_map_indicator {l : List α} (k : α) (hnd : l.Nodup) (g : α → Nat)
    (hg : ∀ x, g x = if x = k then 1 else 0) :
    (l.map g).sum = if k ∈ l then 1 else 0 := by
  induction l with
  | nil => simp
  | cons x xs ih =>
    rw [List.nodup_cons] at hnd
    simp only [List.map_cons, List.sum_cons]
    by_cases hx : x = k
    · subst hx
      rw [hg x, if_pos rfl, if_pos (List.mem_cons_self _ _)]
      have : (xs.map g).sum = 0 := by
        apply sum_map_zero
        intro y hy
        have hne : ¬ (y = x) := fun h => hnd.1 (h ▸ hy)
        rw [hg y, if_neg hne]
      omega
    · rw [hg x, if_neg hx, ih hnd.2]
      by_cases hk : k ∈ xs
      · rw [if_pos hk, if_pos (List.mem_cons_of_mem _ hk)]
      · rw [if_neg hk, if_neg (by
          intro h
          rcases List.mem_cons.1 h with h | h
          · exact hx h.symm
          · exact hk h)]

theorem outer_tail_countP (b : List α) (j : Nat) (k : α) (hjk : b[j]? = some k)
    (removed : List α) :
    ((b.dedup.filter (fun x => decide (x ∉ removed))).flatMap
        (fun x => (prepare_hashed_relation b x).map
          (fun ib => ((none : Option Nat), (some ib : Option Nat))))).countP
        (fun p => decide (p.2 = some j))
      = if k ∈ removed then 0 else 1 := by
  have hkb : k ∈ b := List.getElem?_mem hjk
  rw [countP_flatMap]
  have hg : ∀ x : α,
      (((prepare_hashed_relation b x).map
          (fun ib => ((none : Option Nat), (some ib : Option Nat)))).countP
        (fun p => decide (p.2 = some j)))
      = if x = k then 1 else 0 := by
    intro x
    rw [List.countP_map]
    have hfun : ((fun p : Option Nat × Option Nat => decide (p.2 = some j)) ∘
          (fun ib => ((none : Option Nat), (some ib : Option Nat))))
        = fun ib => decide (ib = j) := by
      funext ib; simp
    rw [hfun, bucket_countP]
    by_cases hx : x = k
    · subst hx; rw [if_pos hjk, if_pos rfl]
    · have hne : ¬ (b[j]? = some x) := by
        intro h
        rw [hjk] at h
        injection h with h'
        exact hx h'.symm
      rw [if_neg hne, if_neg hx]
  rw [List.map_congr_left (fun x _ => hg x),
    sum_map_indicator k ((List.nodup_dedup b).filter _) _ (fun _ => rfl)]
  by_cases hk : k ∈ removed
  · rw [if_pos hk, if_neg (by
      intro h
      have := (List.mem_filter.1 h).2
      exact (of_decide_eq_true this) hk)]
  · rw [if_neg hk, if_pos (List.mem_filter.2
      ⟨List.mem_dedup.2 hkb, decide_eq_true hk⟩)]

theorem outer_probe_swap (b : List α) :
    ∀ (rows : List (Nat × α)) (removed : List α),
      hash_join_tuples_outer_probe b true rows removed
        = ((hash_join_tuples_outer_probe b false rows removed).1.map Prod.swap,
           (hash_join_tuples_outer_probe b false rows removed).2) := by
  intro rows
  induction rows with
  | nil => intro removed; simp [hash_join_tuples_outer_probe]
  | cons r rest ih =>
    intro removed
    obtain ⟨ia, k'⟩ := r
    rw [hash_join_tuples_outer_probe, hash_join_tuples_outer_probe]
    by_cases hc : k' ∈ b ∧ k' ∉ removed
    · rw [if_pos hc, if_pos hc]
      dsimp only
      rw [ih (k' :: removed)]
      simp [List.map_append, List.map_map, Function.comp_def]
    · rw [if_neg hc, if_neg hc]
      dsimp only
      rw [ih removed]
      simp [Function.comp_def]

theorem outer_swap_eq (a b : List α) :
    hash_join_tuples_outer a b true
      = (hash_join_tuples_outer a b false).map Prod.swap := by
  unfold hash_join_tuples_outer
  rw [outer_probe_swap]
  dsimp only
  rw [List.map_append]
  congr 1
  rw [List.map_flatMap]
  apply List.flatMap_congr
  intro x _
  rw [List.map_map]
  simp [Function.comp_def]

theorem outer_probe_fst_isSome (b : List α) :
    ∀ (rows : List (Nat × α)) (removed : List α)
      (p : Option Nat × Option Nat),
      p ∈ (hash_join_tuples_outer_probe b false rows removed).1 → p.1.isSome := by
  intro rows
  induction rows with
  | nil => intro removed p hp; simp [hash_join_tuples_outer_probe] at hp
  | cons r rest ih =>
    intro removed p hp
    obtain ⟨ia, k'⟩ := r
    rw [hash_join_tuples_outer_probe] at hp
    by_cases hc : k' ∈ b ∧ k' ∉ removed
    · rw [if_pos hc] at hp
      dsimp only at hp
      rcases List.mem_append.1 hp with h | h
      · obtain ⟨ib, _, rfl⟩ := List.mem_map.1 h
        simp
      · exact ih (k' :: removed) p h
    · rw [if_neg hc] at hp
      dsimp only at hp
      simp only [if_neg Bool.false_ne_true] at hp
      rcases List.mem_cons.1 hp with h | h
      · subst h; simp
      · exact ih removed p h

/-- Claim C3: for every outer join, no emitted pair has both coordinates
absent, and every build-side row index appears in exactly one pair: a
successful probe lookup removes the matched bucket from the table, and the
second pass emits `(⊥, build_row)` once for every row index still in the
table after probing.  The build-side coordinate is the first when the right
side was the probe side (`swap`) and the second otherwise. -/
theorem c3_outer_join_build_once (a b : List α) (swap : Bool) (j : Nat)
    (hj : j < b.length) :
    (∀ p ∈ hash_join_tuples_outer a b swap, p.1.isSome ∨ p.2.isSome) ∧
    (hash_join_tuples_outer a b swap).countP
        (fun p => decide ((if swap then p.1 else p.2) = some j)) = 1 := by
  have hjk : b[j]? = some (b.get ⟨j, hj⟩) := List.getElem?_eq_getElem hj
  set k := b.get ⟨j, hj⟩ with hk
  have hkb : k ∈ b := List.getElem?_mem hjk
  have main : (∀ p ∈ hash_join_tuples_outer a b false, p.1.isSome ∨ p.2.isSome) ∧
      (hash_join_tuples_outer a b false).countP
          (fun p => decide (p.2 = some j)) = 1 := by
    constructor
    · intro p hp
      rw [hash_join_tuples_outer] at hp
      rcases List.mem_append.1 hp with h | h
      · exact Or.inl (outer_probe_fst_isSome b a.enum [] p h)
      · obtain ⟨x, _, hx⟩ := List.mem_flatMap.1 h
        obtain ⟨ib, _, rfl⟩ := List.mem_map.1 hx
        simp
    · rw [hash_join_tuples_outer]
      simp only [if_neg Bool.false_ne_true]
      rw [List.countP_append,
        outer_probe_countP b j k hjk a.enum [],
        outer_tail_countP b j k hjk]
      have hremoved := outer_probe_removed_mem b false k a.enum []
      by_cases hex : ∃ r ∈ a.enum, r.2 = k
      · rw [if_pos ⟨List.not_mem_nil k, hex⟩,
          if_pos (hremoved.2 (Or.inr ⟨hkb, hex⟩))]
      · rw [if_neg (fun h => hex h.2), if_neg (by
          intro h
          rcases hremoved.1 h with h | h
          · exact List.not_mem_nil k h
          · exact hex h.2)]
  cases swap with
  | false => exact main
  | true =>
    rw [outer_swap_eq]
    constructor
    · intro p hp
      obtain ⟨q, hq, rfl⟩ := List.mem_map.1 hp
      rcases main.1 q hq with h | h
      · exact Or.inr h
      · exact Or.inl h
    · rw [List.countP_map]
      have hfun : ((fun p : Option Nat × Option Nat =>
            decide ((if true = true then p.1 else p.2) = some j)) ∘ Prod.swap)
          = fun p : Option Nat × Option Nat => decide (p.2 = some j) := by
        funext p; simp
      rw [hfun]
      exact main.2

/-- Witness for C3 at a concrete input: probe keys `[7, 5]`, build keys
`[5, 5, 9]`, right side probed (`swap = true`), build row `j = 1`. -/
theorem c3_outer_join_build_once_witness :
    1 < ([5, 5, 9] : List Nat).length ∧
    ((∀ p ∈ hash_join_tuples_outer [7, 5] [5, 5, 9] true,
        p.1.isSome ∨ p.2.isSome) ∧
     (hash_join_tuples_outer [7, 5] [5, 5, 9] true).countP
        (fun p => decide ((if true = true then p.1 else p.2) = some 1)) = 1) :=
  ⟨by decide, c3_outer_join_build_once [7, 5] [5, 5, 9] true 1 (by decide)⟩

end OuterJoin

section Threaded

variable {α : Type} [DecidableEq α]

/-- Modelled from the spec: `prepare_hashed_relation_threaded`
(`vector_hasher`, not under `src/`) builds `P` shards in parallel, each shard
mapping a key to the global build-row indices holding it, in insertion order;
`get_hash_tbl` then selects the one shard a key's hash lands in, so a probe
for key `k` sees exactly the bucket of `k` over the concatenated build
partitions. -/
def prepare_hashed_relation_threaded (b : List (List α)) (k : α) : List Nat :=
  prepare_hashed_relation b.flatten k

/-- One probe partition of `hash_join_tuples_inner_threaded`
(hash_join.rs:94-134): rows are enumerated locally and shifted by the
partition's exclusive prefix-sum offset (`idx_a + local_offset`). -/
def inner_probe_partition (lookup : α → List Nat) (swap : Bool)
    (part : List α) (off : Nat) : List (Nat × Nat) :=
  part.enum.flatMap (fun p =>
    (lookup p.2).map (fun ib =>
      if swap then (ib, p.1 + off) else (p.1 + off, ib)))

/-- The parallel fold of `hash_join_tuples_inner_threaded`: the result is the
ordered concatenation of the per-partition buffers, the offsets being the
exclusive prefix sums of the partition lengths (hash_join.rs:79-93). -/
def inner_threaded_go (lookup : α → List Nat) (swap : Bool) :
    List (List α) → Nat → List (Nat × Nat)
  | [], _ => []
  | part :: rest, off =>
    inner_probe_partition lookup swap part off
      ++ inner_threaded_go lookup swap rest (off + part.length)

/-- `hash_join_tuples_inner_threaded` (hash_join.rs:62-138). -/
def hash_join_tuples_inner_threaded (a b : List (List α)) (swap : Bool) :
    List (Nat × Nat) :=
  inner_threaded_go (prepare_hashed_relation_threaded b) swap a 0

/-- One probe partition of `hash_join_tuples_left_threaded`
(hash_join.rs:169-194). -/
def left_probe_partition (lookup : α → List Nat) (part : List α) (off : Nat) :
    List (Nat × Option Nat) :=
  part.enum.flatMap (fun p =>
    match lookup p.2 with
    | [] => [(p.1 + off, none)]
    | l => l.map (fun ib => (p.1 + off, some ib)))

def left_threaded_go (lookup : α → List Nat) :
    List (List α) → Nat → List (Nat × Option Nat)
  | [], _ => []
  | part :: rest, off =>
    left_probe_partition lookup part off
      ++ left_threaded_go lookup rest (off + part.length)

/-- `hash_join_tuples_left_threaded` (hash_join.rs:140-198). -/
def hash_join_tuples_left_threaded (a b : List (List α)) :
    List (Nat × Option Nat) :=
  left_threaded_go (prepare_hashed_relation_threaded b) a 0

theorem enum_eq_enumFrom (l : List α) : l.enum = l.enumFrom 0 := rfl

theorem enumFrom_add_flatMap {β : Type} :
    ∀ (l : List α) (n m : Nat) (f : Nat × α → List β),
      (l.enumFrom (n + m)).flatMap f
        = (l.enumFrom m).flatMap (fun p => f (p.1 + n, p.2)) := by
  intro l
  induction l with
  | nil => intro n m f; rfl
  | cons x xs ih =>
    intro n m f
    rw [List.enumFrom_cons, List.enumFrom_cons, List.flatMap_cons, List.flatMap_cons]
    rw [show n + m + 1 = n + (m + 1) by omega, ih n (m + 1) f,
      Nat.add_comm m n]

theorem enumFrom_flatMap_shift {β : Type} (l : List α) (n : Nat)
    (f : Nat × α → List β) :
    (l.enumFrom n).flatMap f = l.enum.flatMap (fun p => f (p.1 + n, p.2)) := by
  rw [enum_eq_enumFrom, ← enumFrom_add_flatMap l n 0 f, Nat.add_zero]

theorem inner_go_eq_single (b' : List α) (swap : Bool) :
    ∀ (parts : List (List α)) (off : Nat),
      inner_threaded_go (prepare_hashed_relation b') swap parts off
        = (parts.flatten.enumFrom off).flatMap (fun p =>
            (prepare_hashed_relation b' p.2).map (fun ib =>
              if swap then (ib, p.1) else (p.1, ib))) := by
  intro parts
  induction parts with
  | nil => intro off; rfl
  | cons part rest ih =>
    intro off
    rw [inner_threaded_go, List.flatten_cons, List.enumFrom_append,
      List.flatMap_append, ih (off + part.length)]
    congr 1
    rw [enumFrom_flatMap_shift]
    rfl

theorem left_go_eq_single (b' : List α) :
    ∀ (parts : List (List α)) (off : Nat),
      left_threaded_go (prepare_hashed_relation b') parts off
        = (parts.flatten.enumFrom off).flatMap (left_row_pairs b') := by
  intro parts
  induction parts with
  | nil => intro off; rfl
  | cons part rest ih =>
    intro off
    rw [left_threaded_go, List.flatten_cons, List.enumFrom_append,
      List.flatMap_append, ih (off + part.length)]
    congr 1
    rw [enumFrom_flatMap_shift]
    rfl

/-- Claim C4: for every partitioning of the two key columns (any thread count
`P ≥ 1` splits each input into contiguous partitions), the parallel inner and
left join tuple builders produce exactly the single-threaded reference result
— the ordered concatenation of per-partition buffers, each in probe-row order
with left indexes globalized by the exclusive prefix-sum offset, equals the
sequential probe of the concatenated input; in particular the multisets of
pairs coincide. -/
theorem c4_threaded_eq_single (a b : List (List α)) (swap : Bool) :
    hash_join_tuples_inner_threaded a b swap
      = hash_join_tuples_inner a.flatten b.flatten swap ∧
    hash_join_tuples_left_threaded a b
      = hash_join_tuples_left a.flatten b.flatten := by
  constructor
  · rw [hash_join_tuples_inner_threaded]
    have : prepare_hashed_relation_threaded b = prepare_hashed_relation b.flatten :=
      rfl
    rw [this, inner_go_eq_single, hash_join_tuples_inner, enum_eq_enumFrom]
  · rw [hash_join_tuples_left_threaded]
    have : prepare_hashed_relation_threaded b = prepare_hashed_relation b.flatten :=
      rfl
    rw [this, left_go_eq_single, hash_join_tuples_left, enum_eq_enumFrom]

end Threaded

section ShardSelection

/-- The `u64` wrap-around modulus: Rust `h + i` on `u64` wraps at `2^64`. -/
def U64_MOD : Nat := 2 ^ 64

/-- `get_hash_tbl` (hash_join.rs:44-59): the loop
`for i in 0..len { if (h + i) % len == 0 { idx = i } }` selects the shard
index; the last hit wins and `idx` starts at `0`.  `h + i` is `u64`
arithmetic, so it wraps at `2^64`. -/
def get_hash_tbl (h len : Nat) : Nat :=
  (List.range len).foldl
    (fun idx i => if (h + i) % U64_MOD % len = 0 then i else idx) 0

theorem foldl_select_no_hit (P : Nat → Prop) [DecidablePred P] :
    ∀ (l : List Nat) (init : Nat), (∀ i ∈ l, ¬ P i) →
      l.foldl (fun idx i => if P i then i else idx) init = init := by
  intro l
  induction l with
  | nil => intro init _; rfl
  | cons x xs ih =>
    intro init hnp
    rw [List.foldl_cons, if_neg (hnp x (List.mem_cons_self _ _))]
    exact ih init (fun i hi => hnp i (List.mem_cons_of_mem _ hi))

theorem foldl_select_unique (P : Nat → Prop) [DecidablePred P] :
    ∀ (l : List Nat) (init i0 : Nat), i0 ∈ l → (∀ i ∈ l, P i ↔ i = i0) →
      l.foldl (fun idx i => if P i then i else idx) init = i0 := by
  intro l
  induction l with
  | nil => intro init i0 h _; cases h
  | cons x xs ih =>
    intro init i0 hmem hiff
    by_cases hx : x = i0
    · subst hx
      rw [List.foldl_cons, if_pos ((hiff x (List.mem_cons_self _ _)).2 rfl)]
      by_cases hxs : x ∈ xs
      · exact ih x x hxs (fun i hi => hiff i (List.mem_cons_of_mem _ hi))
      · exact foldl_select_no_hit P xs x (fun i hi hpi =>
          hxs (((hiff i (List.mem_cons_of_mem _ hi)).1 hpi) ▸ hi))
    · rw [List.foldl_cons, if_neg (fun hp =>
        hx ((hiff x (List.mem_cons_self _ _)).1 hp))]
      have : i0 ∈ xs := by
        rcases List.mem_cons.1 hmem with h | h
        · exact absurd h.symm hx
        · exact h
      exact ih init i0 this (fun i hi => hiff i (List.mem_cons_of_mem _ hi))

theorem foldl_select_lt (P : Nat → Prop) [DecidablePred P] :
    ∀ (l : List Nat) (init B : Nat), init < B → (∀ i ∈ l, i < B) →
      l.foldl (fun idx i => if P i then i else idx) init < B := by
  intro l
  induction l with
  | nil => intro init B h _; exact h
  | cons x xs ih =>
    intro init B hinit hall
    rw [List.foldl_cons]
    by_cases hp : P x
    · rw [if_pos hp]
      exact ih x B (hall x (List.mem_cons_self _ _))
        (fun i hi => hall i (List.mem_cons_of_mem _ hi))
    · rw [if_neg hp]
      exact ih init B hinit (fun i hi => hall i (List.mem_cons_of_mem _ hi))

theorem get_hash_tbl_lt (h len : Nat) (hlen : 1 ≤ len) : get_hash_tbl h len < len := by
  rw [get_hash_tbl]
  exact foldl_select_lt _ (List.range len) 0 len hlen
    (fun i hi => List.mem_range.1 hi)

theorem get_hash_tbl_no_wrap (h len : Nat) (hlen : 1 ≤ len)
    (hnw : h + len ≤ U64_MOD) :
    get_hash_tbl h len = (len - h % len) % len := by
  have hr : h % len < len := Nat.mod_lt _ hlen
  have hi0lt : (len - h % len) % len < len := Nat.mod_lt _ hlen
  have hi0 : (len - h % len) % len
      = if h % len = 0 then 0 else len - h % len := by
    by_cases h0 : h % len = 0
    · rw [if_pos h0, h0, Nat.sub_zero, Nat.mod_self]
    · rw [if_neg h0, Nat.mod_eq_of_lt (by omega)]
  rw [get_hash_tbl]
  apply foldl_select_unique _ (List.range len) 0 _ (List.mem_range.2 hi0lt)
  intro i hi
  have hilt : i < len := List.mem_range.1 hi
  have hsmall : h + i < U64_MOD := by omega
  rw [Nat.mod_eq_of_lt hsmall]
  have hmod : (h + i) % len = (h % len + i) % len := (Nat.mod_add_mod h len i).symm
  rw [hmod, hi0]
  constructor
  · intro hz
    obtain ⟨c, hc⟩ := Nat.dvd_of_mod_eq_zero hz
    have hclt : c < 2 := by
      by_contra hc2
      push_neg at hc2
      have h2c : len * 2 ≤ len * c := Nat.mul_le_mul_left len hc2
      rw [← hc] at h2c
      omega
    interval_cases c
    · have h1 : h % len = 0 ∧ i = 0 := by omega
      rw [if_pos h1.1]
      exact h1.2
    · have h2 : h % len ≠ 0 := by
        intro h0
        rw [h0] at hc
        omega
      rw [if_neg h2]
      omega
  · intro hz
    by_cases h0 : h % len = 0
    · rw [if_pos h0] at hz
      rw [hz, h0, Nat.add_zero, Nat.zero_mod]
    · rw [if_neg h0] at hz
      rw [hz, show h % len + (len - h % len) = len from by omega, Nat.mod_self]

/-- Claim C8 (amended): the shard index `get_hash_tbl` selects is always
within bounds, and whenever `h + P` does not overflow `u64`
(`h + P ≤ 2^64`) it is the unique `i` in `[0, P)` with `(h + i) % P = 0`,
hence a function of `h % P` alone; at the `u64` wrap boundary the selected
index can disagree with that of a smaller hash of equal residue (see the
counterexample). -/
theorem c8_shard_selection (h len : Nat) (hlen : 1 ≤ len)
    (hnw : h + len ≤ U64_MOD) :
    (∀ h2, get_hash_tbl h2 len < len) ∧
    get_hash_tbl h len = (len - h % len) % len ∧
    ((h + get_hash_tbl h len) % len = 0 ∧
      ∀ i, i < len → (h + i) % len = 0 → i = get_hash_tbl h len) ∧
    (∀ h2, h2 % len = h % len → h2 + len ≤ U64_MOD →
      get_hash_tbl h2 len = get_hash_tbl h len) := by
  have hr : h % len < len := Nat.mod_lt _ hlen
  have hkey := get_hash_tbl_no_wrap h len hlen hnw
  have hi0 : (len - h % len) % len
      = if h % len = 0 then 0 else len - h % len := by
    by_cases h0 : h % len = 0
    · rw [if_pos h0, h0, Nat.sub_zero, Nat.mod_self]
    · rw [if_neg h0, Nat.mod_eq_of_lt (by omega)]
  refine ⟨fun h2 => get_hash_tbl_lt h2 len hlen, hkey, ⟨?_, ?_⟩, ?_⟩
  · rw [hkey, hi0]
    by_cases h0 : h % len = 0
    · rw [if_pos h0, Nat.add_zero]
      exact h0
    · rw [if_neg h0, ← Nat.mod_add_mod,
        show h % len + (len - h % len) = len from by omega, Nat.mod_self]
  · intro i hilt hz
    rw [hkey, hi0]
    have hmod : (h % len + i) % len = 0 := by
      rw [Nat.mod_add_mod]
      exact hz
    obtain ⟨c, hc⟩ := Nat.dvd_of_mod_eq_zero hmod
    have hclt : c < 2 := by
      by_contra hc2
      push_neg at hc2
      have h2c : len * 2 ≤ len * c := Nat.mul_le_mul_left len hc2
      rw [← hc] at h2c
      omega
    interval_cases c
    · have h1 : h % len = 0 ∧ i = 0 := by omega
      rw [if_pos h1.1]
      exact h1.2
    · have h2 : h % len ≠ 0 := by
        intro h0
        rw [h0] at hc
        omega
      rw [if_neg h2]
      omega
  · intro h2 hres hnw2
    rw [get_hash_tbl_no_wrap h2 len hlen hnw2, hkey, hres]

/-- Witness for C8 at a concrete input: hash `10`, `4` shards. -/
theorem c8_shard_selection_witness :
    1 ≤ 4 ∧ 10 + 4 ≤ U64_MOD ∧
    ((∀ h2, get_hash_tbl h2 4 < 4) ∧
     get_hash_tbl 10 4 = (4 - 10 % 4) % 4 ∧
     ((10 + get_hash_tbl 10 4) % 4 = 0 ∧
       ∀ i, i < 4 → (10 + i) % 4 = 0 → i = get_hash_tbl 10 4) ∧
     (∀ h2, h2 % 4 = 10 % 4 → h2 + 4 ≤ U64_MOD →
       get_hash_tbl h2 4 = get_hash_tbl 10 4)) :=
  ⟨by decide, by decide, c8_shard_selection 10 4 (by decide) (by decide)⟩

/-- Claim C8 counterexample: with `P = 3` shards, the hashes `2^64 - 1` and
`3` have equal residue mod `3`, yet the `u64` addition `h + 1` wraps for the
former and the loop selects shard `1` instead of the residue-determined
shard `0`; the selected index is thus not a function of `h % P`, and differs
from the unique mathematical solution of `(h + i) % P = 0`. -/
theorem c8_wrap_counterexample :
    (2 ^ 64 - 1) % 3 = 3 % 3 ∧
    get_hash_tbl (2 ^ 64 - 1) 3 = 1 ∧
    get_hash_tbl 3 3 = 0 ∧
    get_hash_tbl (2 ^ 64 - 1) 3 ≠ (3 - (2 ^ 64 - 1) % 3) % 3 := by
  refine ⟨by decide, ?_, by decide, ?_⟩ <;> decide

end ShardSelection

section ThreadCap

/-- Rust `usize::MAX` on a 64-bit target. -/
def USIZE_MAX : Nat := 2 ^ 64 - 1

/-- Rust `str::parse::<usize>`: an optional leading `+`, then one or more
ASCII digits, with the decimal value fitting in `usize`; anything else is a
parse error. -/
def parse_usize (s : String) : Option Nat :=
  let t := if s.startsWith "+" then s.drop 1 else s
  if t.length > 0 && t.all Char.isDigit then
    let v := t.foldl (fun acc c => acc * 10 + (c.toNat - 48)) 0
    if v ≤ USIZE_MAX then some v else none
  else none

/-- `n_join_threads` (hash_join.rs:439-444): reads `POLARS_MAX_THREADS`,
parses it (`expect("integer")` panics on a parse failure, modelled as
`none`), defaults to `usize::MAX` when the variable is unset, and returns
the minimum with the CPU count. -/
def n_join_threads (num_cpus : Nat) (env : Option String) : Option Nat :=
  match env with
  | none => some (min num_cpus USIZE_MAX)
  | some s =>
    match parse_usize s with
    | some v => some (min num_cpus v)
    | none => none

/-- Claim C9: the join kernel's thread count is
`min(cpu_count, POLARS_MAX_THREADS)`; with the variable unset it is the CPU
count (the cap defaults to `usize::MAX`, never below a real CPU count), and a
value that does not parse as a decimal integer aborts the computation
instead of producing a count. -/
theorem c9_thread_cap (num_cpus : Nat) (hc : num_cpus ≤ USIZE_MAX) :
    n_join_threads num_cpus none = some num_cpus ∧
    (∀ s v, parse_usize s = some v →
      n_join_threads num_cpus (some s) = some (min num_cpus v)) ∧
    (∀ s, parse_usize s = none → n_join_threads num_cpus (some s) = none) := by
  refine ⟨?_, ?_, ?_⟩
  · rw [n_join_threads, Nat.min_eq_left hc]
  · intro s v hs
    rw [n_join_threads, hs]
  · intro s hs
    rw [n_join_threads, hs]

/-- Witness for C9 at a concrete input: 8 CPUs. -/
theorem c9_thread_cap_witness :
    (8 : Nat) ≤ USIZE_MAX ∧
    (n_join_threads 8 none = some 8 ∧
     (∀ s v, parse_usize s = some v →
       n_join_threads 8 (some s) = some (min 8 v)) ∧
     (∀ s, parse_usize s = none → n_join_threads 8 (some s) = none)) :=
  ⟨by decide, c9_thread_cap 8 (by decide)⟩

end ThreadCap

section KeyDispatch

/-- The three ways `DataFrame::join` (hash_join.rs:732-935) reacts to the
number of key columns. -/
inductive JoinKeyDispatch
  | single_key : JoinKeyDispatch
  | fast_path : Nat → JoinKeyDispatch
  | todo_abort : JoinKeyDispatch
deriving DecidableEq

/-- The key-count dispatch of `DataFrame::join`: one key returns through the
single-key joins; 2 through 6 keys take the `static_zip!` fast paths of the
`match selected_left.len()` arms; every other arity reaches `_ => todo!()`
and aborts. -/
def join_key_dispatch (n_keys : Nat) : JoinKeyDispatch :=
  if n_keys = 1 then JoinKeyDispatch.single_key
  else if 2 ≤ n_keys ∧ n_keys ≤ 6 then JoinKeyDispatch.fast_path n_keys
  else JoinKeyDispatch.todo_abort

/-- Claim C6 counterexample: a join on 7 key columns reaches the
`_ => todo!()` arm and aborts; it does not complete with a Table or an
Error through any generalized composite-key path. -/
theorem c6_seven_keys_abort :
    join_key_dispatch 7 = JoinKeyDispatch.todo_abort := by decide

/-- Claim C6 (amended): joins on 2 through 6 key columns are handled by the
`static_zip!` fast paths, and joins on more than 6 key columns panic in the
`todo!()` arm rather than completing via a generalized composite-key path. -/
theorem c6_key_dispatch (n : Nat) (h2 : 2 ≤ n) (h6 : n ≤ 6) :
    join_key_dispatch n = JoinKeyDispatch.fast_path n ∧
    ∀ m, 6 < m → join_key_dispatch m = JoinKeyDispatch.todo_abort := by
  constructor
  · rw [join_key_dispatch, if_neg (by omega), if_pos ⟨h2, h6⟩]
  · intro m hm
    rw [join_key_dispatch, if_neg (by omega), if_neg (by omega)]

/-- Witness for C6 at a concrete input: 3 key columns. -/
theorem c6_key_dispatch_witness :
    2 ≤ 3 ∧ 3 ≤ 6 ∧
    (join_key_dispatch 3 = JoinKeyDispatch.fast_path 3 ∧
     ∀ m, 6 < m → join_key_dispatch m = JoinKeyDispatch.todo_abort) :=
  ⟨by decide, by decide, c6_key_dispatch 3 (by decide) (by decide)⟩

end KeyDispatch

section Schema

/-- Column data types as far as join schemas are concerned. -/
inductive DType
  | i32 : DType
  | i64 : DType
  | u32 : DType
  | f32 : DType
  | f64 : DType
  | boolean : DType
  | utf8 : DType
  | categorical : DType
deriving DecidableEq

/-- A schema field: a column name and its type. -/
structure Field where
  name : String
  dtype : DType
deriving DecidableEq

/-- `JoinType` (hash_join.rs:37-42). -/
inductive JoinType
  | Left : JoinType
  | Inner : JoinType
  | Outer : JoinType
deriving DecidableEq

/-- `DataFrame::finish_join` (hash_join.rs:704-725) at schema level: every
right column whose name also occurs on the left is renamed with suffix
`_right`, then the right columns are stacked after the left ones.  Gathering
rows by index (`take_iter_unchecked` and friends) preserves each column's
name and type, so the output schema is a function of the two input
schemas. -/
def finish_join (left right : List Field) : List Field :=
  left ++ right.map (fun f =>
    if f.name ∈ left.map Field.name
    then Field.mk (f.name ++ "_right") f.dtype else f)

/-- `remove_selected` (hash_join.rs:775-784) at schema level: drop the key
columns by name. -/
def remove_selected (df : List Field) (keys : List String) : List Field :=
  df.filter (fun f => decide (f.name ∉ keys))

/-- The outer-key zip columns (hash_join.rs:928-932): one reconstructed
column per left key, named after the left key and typed like the left key
column (`zip_outer_join_column` collects into the left side's type), stacked
after the remaining left columns in key-selection order. -/
def outer_zipped_keys (left : List Field) (leftKeys : List String) : List Field :=
  leftKeys.filterMap (fun n => left.find? (fun f => f.name == n))

/-- The output schema of `DataFrame::join` (hash_join.rs:732-935, and the
single-key paths hash_join.rs:948-1064): inner and left joins gather the left
table unchanged and drop the right key columns before `finish_join`; outer
joins drop the key columns from both sides and stack the reconstructed key
columns at the end of the left block. -/
def join_output_schema (how : JoinType) (left right : List Field)
    (leftKeys rightKeys : List String) : List Field :=
  match how with
  | JoinType.Inner => finish_join left (remove_selected right rightKeys)
  | JoinType.Left => finish_join left (remove_selected right rightKeys)
  | JoinType.Outer => finish_join
      (remove_selected left leftKeys ++ outer_zipped_keys left leftKeys)
      (remove_selected right rightKeys)

/-- The schema derivation of the logical-plan Join node
(`LogicalPlanBuilder::join`, logical_plan/mod.rs:1092-1146): the left
schema's fields first, then every right field whose name is not among the
right key names, renamed with suffix `_right` when its name also occurs on
the left. -/
def lp_join_schema (schemaLeft schemaRight : List Field)
    (rightKeys : List String) : List Field :=
  schemaLeft ++
    (schemaRight.filter (fun f => decide (f.name ∉ rightKeys))).map
      (fun f => if f.name ∈ schemaLeft.map Field.name
        then Field.mk (f.name ++ "_right") f.dtype else f)

/-- Claim C5 (amended): for inner and left joins the schema of the table
`DataFrame::join` returns equals the schema the logical-plan Join node
derives; for outer joins the two differ in general, because the materializer
drops the left key columns and re-appends the reconstructed keys at the end
of the left block while the plan rule keeps the left schema's field order
(see the counterexample). -/
theorem c5_inner_left_schema_eq_plan (left right : List Field)
    (leftKeys rightKeys : List String) :
    join_output_schema JoinType.Inner left right leftKeys rightKeys
      = lp_join_schema left right rightKeys ∧
    join_output_schema JoinType.Left left right leftKeys rightKeys
      = lp_join_schema left right rightKeys :=
  ⟨rfl, rfl⟩

/-- Claim C5 counterexample: an outer join of `(days, temp)` with
`(days, rain)` on `days` materializes the schema `(temp, days, rain)` while
the plan rule derives `(days, temp, rain)`. -/
theorem c5_outer_schema_counterexample :
    join_output_schema JoinType.Outer
        [Field.mk "days" DType.i32, Field.mk "temp" DType.f64]
        [Field.mk "days" DType.i32, Field.mk "rain" DType.f64]
        ["days"] ["days"]
      ≠ lp_join_schema
        [Field.mk "days" DType.i32, Field.mk "temp" DType.f64]
        [Field.mk "days" DType.i32, Field.mk "rain" DType.f64]
        ["days"] := by decide

end Schema

section Projections

/-- The expression constructors that `rewrite_projections`
(logical_plan/mod.rs:736-800) treats specially, plus a representative
homomorphic unary constructor (`is_null`).  Every remaining source
constructor (binary ops, windows, ternary, casts, shifts, …) is traversed by
`replace_wildcard_with_column` exactly like `is_null` and is not treated
specially by the projection rewrite. -/
inductive Expr
  | Column : String → Expr
  | Wildcard : Expr
  | Alias : Expr → String → Expr
  | AggCount : Expr → Expr
  | IsNull : Expr → Expr
  | Except : Expr → Expr
deriving DecidableEq

/-- `replace_wildcard_with_column` (logical_plan/mod.rs:594-732): replace
every wildcard leaf by a reference to the given column; `Except` payloads are
returned unchanged (mod.rs:730). -/
def replace_wildcard_with_column : Expr → String → Expr
  | Expr.Wildcard, name => Expr.Column name
  | Expr.Column s, _ => Expr.Column s
  | Expr.Alias e n, name => Expr.Alias (replace_wildcard_with_column e name) n
  | Expr.AggCount e, name => Expr.AggCount (replace_wildcard_with_column e name)
  | Expr.IsNull e, name => Expr.IsNull (replace_wildcard_with_column e name)
  | Expr.Except e, _ => Expr.Except e

/-- Modelled from the spec: `expr_to_root_column_exprs` (`crate::utils`, not
under `src/`) collects the leaf column/wildcard expressions of a tree. -/
def expr_to_root_column_exprs : Expr → List Expr
  | Expr.Column s => [Expr.Column s]
  | Expr.Wildcard => [Expr.Wildcard]
  | Expr.Alias e _ => expr_to_root_column_exprs e
  | Expr.AggCount e => expr_to_root_column_exprs e
  | Expr.IsNull e => expr_to_root_column_exprs e
  | Expr.Except e => expr_to_root_column_exprs e

/-- Modelled from the spec: `expr_to_root_column_name` (`crate::utils`, not
under `src/`): the name of the unique root column; an error (modelled
`none`) when the root is a wildcard or not unique. -/
def expr_to_root_column_name (e : Expr) : Option String :=
  match expr_to_root_column_exprs e with
  | [Expr.Column s] => some s
  | _ => none

/-- Modelled from the spec: `has_expr` (`crate::utils`, not under `src/`):
whether the tree has a subexpression equal to the matcher. -/
def has_expr : Expr → Expr → Bool
  | e@(Expr.Column _), m => e == m
  | e@Expr.Wildcard, m => e == m
  | e@(Expr.Alias e1 _), m => e == m || has_expr e1 m
  | e@(Expr.AggCount e1), m => e == m || has_expr e1 m
  | e@(Expr.IsNull e1), m => e == m || has_expr e1 m
  | e@(Expr.Except e1), m => e == m || has_expr e1 m

/-- Modelled from the spec: `rename_expr_root_name` (`crate::utils`, not
under `src/`): replace the root column (or wildcard, for the `count(*)`
collapse) by a reference to the given column. -/
def rename_expr_root_name : Expr → String → Option Expr
  | Expr.Column _, n => some (Expr.Column n)
  | Expr.Wildcard, n => some (Expr.Column n)
  | Expr.Alias e a, n => (rename_expr_root_name e n).map (fun e2 => Expr.Alias e2 a)
  | Expr.AggCount e, n => (rename_expr_root_name e n).map Expr.AggCount
  | Expr.IsNull e, n => (rename_expr_root_name e n).map Expr.IsNull
  | Expr.Except _, _ => none

def Expr.is_alias : Expr → Bool
  | Expr.Alias _ _ => true
  | _ => false

def Expr.is_except : Expr → Bool
  | Expr.Except _ => true
  | _ => false

/-- Rust `Vec::swap_remove`: overwrite position `i` with the last element and
pop the last element. -/
def swap_remove {β : Type} (l : List β) (i : Nat) : List β :=
  match l.getLast? with
  | none => []
  | some x => (l.set i x).dropLast

/-- The first pass of `rewrite_projections` (logical_plan/mod.rs:739-785):
`Except(column)` entries are recorded in `exclude` and dropped from the list
(`none` models the panic on a non-column `Except`); an expression with a
wildcard among its roots is either collapsed to a single `count` alias
(`count(*)`) or cloned once per schema column with the wildcard replaced;
every other expression passes through unchanged. -/
def rewrite_projections_loop (schema : List Field) :
    List Expr → List Expr → List String → Option (List Expr × List String)
  | [], result, exclude => some (result, exclude)
  | expr :: rest, result, exclude =>
    match expr with
    | Expr.Except inner =>
      match inner with
      | Expr.Column n => rewrite_projections_loop schema rest result (exclude ++ [n])
      | _ => none
    | _ =>
      if (expr_to_root_column_exprs expr).contains Expr.Wildcard then
        if has_expr expr (Expr.AggCount Expr.Wildcard) then
          match schema.head? with
          | none => none
          | some f0 =>
            match rename_expr_root_name expr f0.name with
            | none => none
            | some e2 =>
              rewrite_projections_loop schema rest
                (result ++ [if e2.is_alias then e2 else Expr.Alias e2 "count"])
                exclude
        else
          rewrite_projections_loop schema rest
            (result ++ schema.map (fun f => replace_wildcard_with_column expr f.name))
            exclude
      else
        rewrite_projections_loop schema rest (result ++ [expr]) exclude

/-- One step of the exclusion pass of `rewrite_projections`
(logical_plan/mod.rs:787-797): the position of the first expression whose
root column name equals the excepted name is looked up, and if found that
expression is removed with `Vec::swap_remove`. -/
def exclude_step (res : List Expr) (name : String) : List Expr :=
  match res.findIdx? (fun e => decide (expr_to_root_column_name e = some name)) with
  | some idx => swap_remove res idx
  | none => res

/-- The exclusion pass of `rewrite_projections` (logical_plan/mod.rs:786-798):
the steps run in the order the `Except` entries were recorded. -/
def apply_exclude (result : List Expr) (exclude : List String) : List Expr :=
  exclude.foldl exclude_step result

/-- `rewrite_projections` (logical_plan/mod.rs:736-800); `none` models a
panic inside the rewrite. -/
def rewrite_projections (exprs : List Expr) (schema : List Field) :
    Option (List Expr) :=
  (rewrite_projections_loop schema exprs [] []).map
    (fun r => apply_exclude r.1 r.2)

theorem countP_swap_remove {β : Type} (l : List β) (i : Nat) (hi : i < l.length)
    (p : β → Bool) :
    (swap_remove l i).countP p
      = l.countP p - (if p (l.get ⟨i, hi⟩) then 1 else 0) := by
  have hne : l ≠ [] := by
    intro h
    subst h
    simp at hi
  have hsw : swap_remove l i = (l.set i (l.getLast hne)).dropLast := by
    rw [swap_remove, List.getLast?_eq_getLast l hne]
  have hlen : (l.set i (l.getLast hne)).length = l.length := by simp
  have hmne : l.set i (l.getLast hne) ≠ [] := by
    intro h
    rw [← List.length_eq_zero, hlen] at h
    omega
  have hsplit := List.dropLast_concat_getLast hmne
  have hcount : (l.set i (l.getLast hne)).countP p
      = (l.set i (l.getLast hne)).dropLast.countP p
        + (if p ((l.set i (l.getLast hne)).getLast hmne) then 1 else 0) := by
    conv_lhs => rw [← hsplit]
    rw [List.countP_append]
    by_cases hp : p ((l.set i (l.getLast hne)).getLast hmne)
    · rw [if_pos hp]
      simp [hp]
    · rw [if_neg hp]
      simp [hp]
  have hgl : (l.set i (l.getLast hne)).getLast hmne = l.getLast hne := by
    rw [List.getLast_eq_getElem]
    simp only [hlen]
    rw [List.getElem_set]
    by_cases hil : i = l.length - 1
    · rw [if_pos hil]
    · rw [if_neg hil]
      exact (List.getLast_eq_getElem l hne).symm
  have hset := List.countP_set p l i (l.getLast hne) hi
  have hbound := List.boole_getElem_le_countP p l i hi
  rw [hgl] at hcount
  have hget : l.get ⟨i, hi⟩ = l[i] := rfl
  rw [hsw, hget]
  omega

theorem mem_swap_remove {β : Type} {l : List β} {i : Nat} {x : β}
    (h : x ∈ swap_remove l i) : x ∈ l := by
  rw [swap_remove] at h
  cases hl : l.getLast? with
  | none =>
    rw [hl] at h
    simp at h
  | some y =>
    rw [hl] at h
    have h1 : x ∈ l.set i y := (List.dropLast_sublist _).mem h
    rcases List.mem_or_eq_of_mem_set h1 with h2 | h2
    · exact h2
    · subst h2
      exact List.mem_of_getLast?_eq_some hl

theorem mem_exclude_step {res : List Expr} {name : String} {x : Expr}
    (h : x ∈ exclude_step res name) : x ∈ res := by
  rw [exclude_step] at h
  cases hf : res.findIdx? (fun e => decide (expr_to_root_column_name e = some name)) with
  | none => rw [hf] at h; exact h
  | some idx => rw [hf] at h; exact mem_swap_remove h

theorem mem_apply_exclude {exclude : List String} :
    ∀ {result : List Expr} {x : Expr},
      x ∈ apply_exclude result exclude → x ∈ result := by
  induction exclude with
  | nil => intro result x h; exact h
  | cons n ns ih =>
    intro result x h
    exact mem_exclude_step (ih h)

theorem exclude_step_countP_le (res : List Expr) (name : String)
    (p : Expr → Bool) :
    (exclude_step res name).countP p ≤ res.countP p := by
  rw [exclude_step]
  cases hf : res.findIdx? (fun e => decide (expr_to_root_column_name e = some name)) with
  | none => exact Nat.le_refl _
  | some idx =>
    obtain ⟨hlt, -, -⟩ := List.findIdx?_eq_some_iff_getElem.1 hf
    rw [countP_swap_remove res idx hlt p]
    omega

theorem apply_exclude_countP_le (exclude : List String) :
    ∀ (result : List Expr) (p : Expr → Bool),
      (apply_exclude result exclude).countP p ≤ result.countP p := by
  induction exclude with
  | nil => intro result p; exact Nat.le_refl _
  | cons n ns ih =>
    intro result p
    exact Nat.le_trans (ih (exclude_step result n) p)
      (exclude_step_countP_le result n p)

theorem apply_exclude_countP_zero (n : String) :
    ∀ (exclude : List String) (result : List Expr),
      n ∈ exclude →
      result.countP (fun e => decide (expr_to_root_column_name e = some n)) ≤ 1 →
      (apply_exclude result exclude).countP
        (fun e => decide (expr_to_root_column_name e = some n)) = 0 := by
  intro exclude
  induction exclude with
  | nil => intro result h; cases h
  | cons m ms ih =>
    intro result hmem hle
    by_cases hm : m = n
    · subst hm
      have hstep : (exclude_step result m).countP
          (fun e => decide (expr_to_root_column_name e = some m)) = 0 := by
        rw [exclude_step]
        cases hf : result.findIdx?
            (fun e => decide (expr_to_root_column_name e = some m)) with
        | none =>
          rw [List.countP_eq_zero]
          intro e he hp
          have := List.findIdx?_eq_none_iff.1 hf e he
          rw [hp] at this
          cases this
        | some idx =>
          obtain ⟨hlt, hp, -⟩ := List.findIdx?_eq_some_iff_getElem.1 hf
          rw [countP_swap_remove result idx hlt]
          have hget : result.get ⟨idx, hlt⟩ = result[idx] := rfl
          rw [hget, if_pos hp]
          omega
      have hfin := apply_exclude_countP_le ms (exclude_step result m)
        (fun e => decide (expr_to_root_column_name e = some m))
      rw [hstep] at hfin
      exact Nat.le_zero.1 hfin
    · have hmem' : n ∈ ms := by
        rcases List.mem_cons.1 hmem with h | h
        · exact absurd h.symm hm
        · exact h
      exact ih (exclude_step result m) hmem'
        (Nat.le_trans (exclude_step_countP_le result m _) hle)

theorem replace_wildcard_not_except {e : Expr} (h : e.is_except = false)
    (n : String) :
    (replace_wildcard_with_column e n).is_except = false := by
  cases e <;> simp_all [replace_wildcard_with_column, Expr.is_except]

theorem rename_not_except {e e2 : Expr} {n : String}
    (h : rename_expr_root_name e n = some e2) : e2.is_except = false := by
  cases e with
  | Column s =>
    rw [rename_expr_root_name] at h
    injection h with h
    rw [← h]
    rfl
  | Wildcard =>
    rw [rename_expr_root_name] at h
    injection h with h
    rw [← h]
    rfl
  | Alias e1 a =>
    rw [rename_expr_root_name] at h
    obtain ⟨e3, -, h2⟩ := Option.map_eq_some'.1 h
    rw [← h2]
    rfl
  | AggCount e1 =>
    rw [rename_expr_root_name] at h
    obtain ⟨e3, -, h2⟩ := Option.map_eq_some'.1 h
    rw [← h2]
    rfl
  | IsNull e1 =>
    rw [rename_expr_root_name] at h
    obtain ⟨e3, -, h2⟩ := Option.map_eq_some'.1 h
    rw [← h2]
    rfl
  | Except e1 =>
    rw [rename_expr_root_name] at h
    cases h

theorem loop_result_no_except (schema : List Field) :
    ∀ (exprs result : List Expr) (exclude : List String)
      (out : List Expr × List String),
      rewrite_projections_loop schema exprs result exclude = some out →
      (∀ e ∈ result, e.is_except = false) →
      ∀ e ∈ out.1, e.is_except = false := by
  intro exprs
  induction exprs with
  | nil =>
    intro result exclude out h hres
    rw [rewrite_projections_loop] at h
    injection h with h
    rw [← h]
    exact hres
  | cons expr rest ih =>
    intro result exclude out h hres
    by_cases hex : ∃ e1, expr = Expr.Except e1
    · obtain ⟨e1, rfl⟩ := hex
      cases e1 <;> first
        | exact ih _ _ _ h hres
        | exact Option.noConfusion h
    · have hnex : expr.is_except = false := by
        cases expr <;> first | rfl | exact absurd ⟨_, rfl⟩ hex
      have hbody : rewrite_projections_loop schema (expr :: rest) result exclude
          = (if (expr_to_root_column_exprs expr).contains Expr.Wildcard then
               if has_expr expr (Expr.AggCount Expr.Wildcard) then
                 match schema.head? with
                 | none => none
                 | some f0 =>
                   match rename_expr_root_name expr f0.name with
                   | none => none
                   | some e2 =>
                     rewrite_projections_loop schema rest
                       (result ++
                         [if e2.is_alias then e2 else Expr.Alias e2 "count"])
                       exclude
               else
                 rewrite_projections_loop schema rest
                   (result ++
                     schema.map (fun f => replace_wildcard_with_column expr f.name))
                   exclude
             else rewrite_projections_loop schema rest (result ++ [expr]) exclude) := by
        cases expr <;> first | rfl | exact absurd ⟨_, rfl⟩ hex
      rw [hbody] at h
      split at h
      · split at h
        · -- count(*) collapse
          split at h
          · exact Option.noConfusion h
          · split at h
            · exact Option.noConfusion h
            · rename_i e2 hr
              apply ih _ _ _ h
              intro e he
              rcases List.mem_append.1 he with h1 | h1
              · exact hres e h1
              · rw [List.mem_singleton] at h1
                subst h1
                split
                · exact rename_not_except hr
                · rfl
        · -- wildcard expansion over the schema
          apply ih _ _ _ h
          intro e he
          rcases List.mem_append.1 he with h1 | h1
          · exact hres e h1
          · obtain ⟨f, -, rfl⟩ := List.mem_map.1 h1
            exact replace_wildcard_not_except hnex f.name
      · -- pass-through
        apply ih _ _ _ h
        intro e he
        rcases List.mem_append.1 he with h1 | h1
        · exact hres e h1
        · rw [List.mem_singleton] at h1
          subst h1
          exact hnex

/-- Claim C7 (amended): `Except(name)` entries are removed from the
expression list before wildcard expansion and never appear in the rewrite
output; each `Except` entry then removes only the *first* expression whose
root column name equals the excepted name, so no such expression remains
whenever each excepted name matches at most one expanded expression — but a
later duplicate with the same root name survives (see the counterexample). -/
theorem c7_except_removal (exprs : List Expr) (schema : List Field)
    (expanded : List Expr) (exclude : List String)
    (hloop : rewrite_projections_loop schema exprs [] [] = some (expanded, exclude)) :
    rewrite_projections exprs schema = some (apply_exclude expanded exclude) ∧
    (∀ e ∈ apply_exclude expanded exclude, e.is_except = false) ∧
    ∀ n ∈ exclude,
      expanded.countP (fun e => decide (expr_to_root_column_name e = some n)) ≤ 1 →
      (apply_exclude expanded exclude).countP
        (fun e => decide (expr_to_root_column_name e = some n)) = 0 := by
  refine ⟨?_, ?_, ?_⟩
  · rw [rewrite_projections, hloop]
    rfl
  · intro e he
    exact loop_result_no_except schema exprs [] [] (expanded, exclude) hloop
      (by intro e2 he2; cases he2) e (mem_apply_exclude he)
  · intro n hn hle
    exact apply_exclude_countP_zero n exclude expanded hn hle

/-- Witness for C7 at a concrete input: `[*, except(a)]` over schema
`(a, b)` expands to `[a, b]` with exclusion list `[a]`, and the output
`[b]` has no expression rooted at `a`. -/
theorem c7_except_removal_witness :
    rewrite_projections_loop [Field.mk "a" DType.i32, Field.mk "b" DType.f64]
        [Expr.Wildcard, Expr.Except (Expr.Column "a")] [] []
      = some ([Expr.Column "a", Expr.Column "b"], ["a"]) ∧
    (rewrite_projections [Expr.Wildcard, Expr.Except (Expr.Column "a")]
        [Field.mk "a" DType.i32, Field.mk "b" DType.f64]
      = some (apply_exclude [Expr.Column "a", Expr.Column "b"] ["a"]) ∧
     (∀ e ∈ apply_exclude [Expr.Column "a", Expr.Column "b"] ["a"],
        e.is_except = false) ∧
     ∀ n ∈ ["a"],
       ([Expr.Column "a", Expr.Column "b"].countP
          (fun e => decide (expr_to_root_column_name e = some n))) ≤ 1 →
       ((apply_exclude [Expr.Column "a", Expr.Column "b"] ["a"]).countP
          (fun e => decide (expr_to_root_column_name e = some n))) = 0) :=
  ⟨by decide, c7_except_removal _ _ _ _ (by decide)⟩

/-- Claim C7 counterexample: the projection list `[col(a), col(a),
except(a)]` rewrites to `[col(a)]` — the `Except` entry removes only the
first matching expression, so an expression whose root column name equals
the excepted name remains in the output. -/
theorem c7_except_survivor_counterexample :
    rewrite_projections
        [Expr.Column "a", Expr.Column "a", Expr.Except (Expr.Column "a")]
        [Field.mk "a" DType.i32]
      = some [Expr.Column "a"] ∧
    expr_to_root_column_name (Expr.Column "a") = some "a" :=
  ⟨by decide, by decide⟩

end Projections

section PlanBuilder

/-- Modelled from the spec: `utils::output_name` (`crate::utils`, not under
`src/`): an expression's output name is its alias if any, else its unique
root column name. -/
def output_name : Expr → Option String
  | Expr.Alias _ n => some n
  | e => expr_to_root_column_name e

/-- Modelled from the spec: the field an expression contributes to a
projection schema (`utils::expressions_to_schema`, not under `src/`): named
by alias or root column, typed by the root column's type in the input
schema. -/
def expr_field (schema : List Field) (e : Expr) : Option Field := do
  let n ← output_name e
  let r ← expr_to_root_column_name e
  let f ← schema.find? (fun f => f.name == r)
  pure (Field.mk n f.dtype)

/-- Modelled from the spec: `utils::expressions_to_schema` (not under
`src/`). -/
def expressions_to_schema (exprs : List Expr) (schema : List Field) :
    List Field :=
  exprs.filterMap (expr_field schema)

/-- The logical-plan nodes needed by the projection builder
(logical_plan/mod.rs:121-232): a dataframe scan and a projection node
carrying its rewritten expressions and derived schema; the other node kinds
are not touched by the claims. -/
inductive LogicalPlan
  | dataframe_scan : List Field → LogicalPlan
  | projection : List Expr → LogicalPlan → List Field → LogicalPlan
deriving DecidableEq

/-- `LogicalPlan::schema` (logical_plan/mod.rs:805-829): a projection stores
its schema inline, a scan exposes the frame's schema. -/
def LogicalPlan.schema : LogicalPlan → List Field
  | LogicalPlan.dataframe_scan s => s
  | LogicalPlan.projection _ _ s => s

/-- `prepare_projection` (logical_plan/mod.rs:841-845): rewrite the
expressions, then derive the projection schema from the result. -/
def prepare_projection (exprs : List Expr) (schema : List Field) :
    Option (List Expr × List Field) :=
  (rewrite_projections exprs schema).map
    (fun es => (es, expressions_to_schema es schema))

/-- `LogicalPlanBuilder::project` (logical_plan/mod.rs:918-932): when the
rewritten expression list is non-empty a `Projection` node is pushed,
otherwise the builder is returned unchanged — an empty selection is a
select-all. -/
def project (lp : LogicalPlan) (exprs : List Expr) : Option LogicalPlan :=
  match prepare_projection exprs lp.schema with
  | none => none
  | some (es, schema) =>
    if es.isEmpty then some lp
    else some (LogicalPlan.projection es lp schema)

/-- Claim C10: for every builder state, `project(exprs)` whose expression
list rewrites to the empty list is the identity: no `Projection` node is
added, and the resulting plan — hence its schema — is exactly the input. -/
theorem c10_project_empty_identity (lp : LogicalPlan) (exprs : List Expr)
    (h : rewrite_projections exprs lp.schema = some []) :
    project lp exprs = some lp ∧
    (project lp exprs).map LogicalPlan.schema = some lp.schema := by
  have hp : prepare_projection exprs lp.schema
      = some ([], expressions_to_schema [] lp.schema) := by
    rw [prepare_projection, h]
    rfl
  constructor
  · rw [project, hp]
    rfl
  · rw [project, hp]
    rfl

/-- Witness for C10 at a concrete input: the empty expression list over a
one-column scan. -/
theorem c10_project_empty_identity_witness :
    rewrite_projections []
        (LogicalPlan.dataframe_scan [Field.mk "a" DType.i32]).schema
      = some [] ∧
    (project (LogicalPlan.dataframe_scan [Field.mk "a" DType.i32]) []
        = some (LogicalPlan.dataframe_scan [Field.mk "a" DType.i32]) ∧
     (project (LogicalPlan.dataframe_scan [Field.mk "a" DType.i32]) []).map
          LogicalPlan.schema
        = some (LogicalPlan.dataframe_scan [Field.mk "a" DType.i32]).schema) :=
  ⟨by decide, c10_project_empty_identity
    (LogicalPlan.dataframe_scan [Field.mk "a" DType.i32]) [] (by decide)⟩

end PlanBuilder

end Polars
